import Mathlib

/-!
Verification of the dispatch core of a terminal-control library.

Part 1 models the command-dispatch macros (`queue!` / `execute!` from
`src/macros.rs`, unix path): a batch of commands is written to an abstract
byte sink with short-circuit error propagation, and `execute!` flushes the
sink after a fully successful batch.  The sink is modelled as the ordered
trace of operations performed on it (`write` with a payload, or `flush`),
which is exactly what the repository's own `FakeWrite` test double records.

Part 2 models the attribute bitset (`src/style/attributes.rs`).
-/

namespace Crossterm

/-- An operation performed on the byte sink (`io::Write`): either a `write`
of a rendered escape sequence, or a `flush`. -/
inductive Event where
  | write : String → Event
  | flush : Event
deriving DecidableEq, Repr

/-- The sink is the ordered trace of operations performed on it. -/
abbrev Sink := List Event

instance : DecidableEq (Except String Unit) := fun a b =>
  match a, b with
  | Except.ok x, Except.ok y => isTrue (by cases x; cases y; rfl)
  | Except.error x, Except.error y =>
      if h : x = y then isTrue (by rw [h]) else isFalse (fun hh => by cases hh; exact h rfl)
  | Except.ok _, Except.error _ => isFalse (fun hh => by cases hh)
  | Except.error _, Except.ok _ => isFalse (fun hh => by cases hh)

/-- A Capability (a `Command`): `render` is its `ansi_code()` rendered form,
and `res` is the outcome of `write!(writer, "{}", ansi_code())` for it:
`ok ()` when the write succeeds, `error e` when it fails with error `e`. -/
structure Capability where
  render : String
  res : Except String Unit
deriving DecidableEq, Repr

/-- `handle_command!(writer, cmd)` (unix path): write the rendered form to
the sink; a successful write appends a `write` event, a failed write leaves
the sink unchanged and surfaces the error. -/
def handle_command (w : Sink) (c : Capability) : Except String Unit × Sink :=
  match c.res with
  | Except.ok _ => (Except.ok (), w ++ [Event.write c.render])
  | Except.error e => (Except.error e, w)

/-- `queue!(writer, cmd, ...)`: `Ok(()).and_then(...).and_then(...)` —
handle each command in argument order, short-circuiting on the first
error; the sink keeps whatever was already written. -/
def queue (w : Sink) : List Capability → Except String Unit × Sink
  | [] => (Except.ok (), w)
  | c :: rest =>
    match handle_command w c with
    | (Except.ok _, w1) => queue w1 rest
    | (Except.error e, w1) => (Except.error e, w1)

/-- `execute!(writer, cmd, ...)`: queue each command, then flush, the flush
happening only when the whole queue succeeded. -/
def execute (w : Sink) (cs : List Capability) : Except String Unit × Sink :=
  match queue w cs with
  | (Except.ok _, w1) => (Except.ok (), w1 ++ [Event.flush])
  | (Except.error e, w1) => (Except.error e, w1)

/-- Number of flush operations recorded in a sink trace. -/
def countFlush : Sink → Nat
  | [] => 0
  | Event.flush :: t => countFlush t + 1
  | Event.write _ :: t => countFlush t

/-- The write events a list of capabilities produces, in order. -/
def writesOf (cs : List Capability) : Sink :=
  cs.map (fun c => Event.write c.render)

/-- Modelled from the spec: the fixed enumeration of text attribute kinds.
The enumeration itself lives outside the modelled sources; per the spec it
is a fixed ordered list of (kind, bit) pairs in which the kind at
enumeration position `p` owns bit `p + 1` of the 32-bit mask, and kinds
beyond the representable bit width are a construction-time precondition
violation, so positions range over `0..30` (bits `1..31`). -/
structure Attribute where
  pos : Fin 31
deriving DecidableEq, Repr

/-- `Attribute::bytes()`: the single mask bit owned by this kind. -/
def Attribute.bytes (a : Attribute) : Nat := 2 ^ (a.pos.val + 1)

/-- Modelled from the spec: `Attribute::iterator().nth(i)` — the kind at
enumeration position `i`, when in range. -/
def Attribute.nthKind (i : Nat) : Option Attribute :=
  if h : i < 31 then some ⟨⟨i, h⟩⟩ else none

/-- Convenient constructor for a kind from its enumeration position. -/
def attrK (p : Fin 31) : Attribute := ⟨p⟩

/-- The attribute bitset: a 32-bit mask `bytes` plus the iteration cursor
`idx`, exactly the two fields of the source struct.  Equality is the
derived structural equality, comparing both fields. -/
structure Attributes where
  bytes : Nat
  idx : Nat
deriving DecidableEq, Repr

/-- All 32 bits set: the value of `!0u32`, used to model `!attr.bytes()`. -/
def u32Mask : Nat := 2 ^ 32 - 1

/-- `Attributes::default()`. -/
def Attributes.default : Attributes := ⟨0, 0⟩

/-- `From<Attribute> for Attributes`. -/
def Attributes.fromAttribute (a : Attribute) : Attributes := ⟨a.bytes, 0⟩

/-- `Attributes::set`: `self.bytes |= attribute.bytes()`. -/
def Attributes.set (s : Attributes) (a : Attribute) : Attributes :=
  ⟨s.bytes ||| a.bytes, s.idx⟩

/-- `Attributes::unset`: `self.bytes &= !attribute.bytes()`. -/
def Attributes.unset (s : Attributes) (a : Attribute) : Attributes :=
  ⟨s.bytes &&& (a.bytes ^^^ u32Mask), s.idx⟩

/-- `Attributes::toggle`: `self.bytes ^= attribute.bytes()`. -/
def Attributes.toggle (s : Attributes) (a : Attribute) : Attributes :=
  ⟨s.bytes ^^^ a.bytes, s.idx⟩

/-- `Attributes::has`: `self.bytes & attribute.bytes() != 0`. -/
def Attributes.has (s : Attributes) (a : Attribute) : Bool :=
  s.bytes &&& a.bytes != 0

/-- `Attributes::extend`: `self.bytes |= attributes.bytes`. -/
def Attributes.extend (s : Attributes) (o : Attributes) : Attributes :=
  ⟨s.bytes ||| o.bytes, s.idx⟩

/-- `Attributes::is_empty`: `self.bytes == 0`. -/
def Attributes.isEmptySet (s : Attributes) : Bool := s.bytes == 0

/-- `From<&[Attribute]> for Attributes`: start from default, `set` each. -/
def Attributes.fromList (l : List Attribute) : Attributes :=
  l.foldl (fun s a => s.set a) Attributes.default

/-- `BitAnd for Attributes` (intersection): cursor reset to 0. -/
def Attributes.bitand (x y : Attributes) : Attributes := ⟨x.bytes &&& y.bytes, 0⟩

/-- `BitOr for Attributes` (union): cursor reset to 0. -/
def Attributes.bitor (x y : Attributes) : Attributes := ⟨x.bytes ||| y.bytes, 0⟩

/-- `BitXor for Attributes` (symmetric difference): cursor reset to 0. -/
def Attributes.bitxor (x y : Attributes) : Attributes := ⟨x.bytes ^^^ y.bytes, 0⟩

/-- Bit length of a number, with explicit fuel; `bitLen 32 n` is
`32 - n.leading_zeros()` for a `u32` value `n`. -/
def bitLen : Nat → Nat → Nat
  | 0, _ => 0
  | f + 1, n => if n = 0 then 0 else bitLen f (n / 2) + 1

/-- `32 - self.bytes.leading_zeros()` for a `u32` mask. -/
def u32len (n : Nat) : Nat := bitLen 32 n

/-- The ways `Attributes::next` can panic: `1u32 << (idx + 1)` with a
shift amount of at least 32, or `iterator().nth(idx).unwrap()` on `None`.
`outOfFuel` marks exhaustion of the explicit recursion fuel and is proved
unreachable for the fuel used. -/
inductive Panic where
  | shiftOverflow
  | nthNone
  | outOfFuel
deriving DecidableEq, Repr

/-- The scanning loop of `Attributes::next`.  Called at a cursor `idx`
that is known to be below `len`; computes `bytes & (1u32 << (idx + 1))`
(panicking if the shift amount reaches 32), yields `idx` when the bit is
set, stops when the incremented cursor reaches `len`, and otherwise
advances — mirroring the source's `while has_it == 0` loop. -/
def nextGo (bytes len : Nat) : Nat → Nat → Except Panic (Option Nat × Nat)
  | 0, _ => Except.error Panic.outOfFuel
  | f + 1, idx =>
    if 32 ≤ idx + 1 then Except.error Panic.shiftOverflow
    else if bytes &&& ((1 : Nat) <<< (idx + 1)) != 0 then Except.ok (some idx, idx + 1)
    else if len ≤ idx + 1 then Except.ok (none, idx + 1)
    else nextGo bytes len f (idx + 1)

/-- `Attributes::next` (the `Iterator` impl): returns the yielded kind (if
any) together with the successor state, or the panic it runs into. -/
def Attributes.next (a : Attributes) : Except Panic (Option Attribute × Attributes) :=
  let len := u32len a.bytes
  if len ≤ a.idx then Except.ok (none, a)
  else
    match nextGo a.bytes len 33 a.idx with
    | Except.error p => Except.error p
    | Except.ok (none, j) => Except.ok (none, ⟨a.bytes, j⟩)
    | Except.ok (some p, j) =>
      match Attribute.nthKind p with
      | some k => Except.ok (some k, ⟨a.bytes, j⟩)
      | none => Except.error Panic.nthNone

/-- Drive the iterator to exhaustion, collecting the yielded kinds. -/
def collect (fuel : Nat) (a : Attributes) : Except Panic (List Attribute) :=
  match fuel with
  | 0 => Except.error Panic.outOfFuel
  | f + 1 =>
    match a.next with
    | Except.error p => Except.error p
    | Except.ok (none, _) => Except.ok []
    | Except.ok (some k, a1) =>
      match collect f a1 with
      | Except.error p => Except.error p
      | Except.ok l => Except.ok (k :: l)

/-- Reference list of kinds: scan positions `i, i+1, ...` upward and keep
those whose bit is set in `bytes`. -/
def attrScan (bytes : Nat) : Nat → Nat → List Attribute
  | 0, _ => []
  | f + 1, i =>
    if h : i < 31 then
      if bytes.testBit (i + 1) then ⟨⟨i, h⟩⟩ :: attrScan bytes f (i + 1)
      else attrScan bytes f (i + 1)
    else []

/-- The kinds at positions `≥ i` whose bits are set, in ascending order. -/
def attrsUpFrom (bytes i : Nat) : List Attribute := attrScan bytes (31 - i) i

theorem and_two_pow_eq (n k : Nat) :
    n &&& 2 ^ k = if n.testBit k then 2 ^ k else 0 := by
  apply Nat.eq_of_testBit_eq
  intro j
  rw [Nat.testBit_and]
  by_cases hj : j = k
  · subst hj
    cases h : n.testBit j <;> simp [h, Nat.testBit_two_pow_self]
  · have h2 : (2 ^ k).testBit j = false := Nat.testBit_two_pow_of_ne (fun hkj => hj hkj.symm)
    cases h : n.testBit k <;> simp [h, h2]

theorem and_two_pow_ne (n k : Nat) : (n &&& 2 ^ k != 0) = n.testBit k := by
  rw [and_two_pow_eq]
  have hp : 2 ^ k ≠ 0 := Nat.pos_iff_ne_zero.mp (Nat.pos_pow_of_pos k (by omega))
  cases h : n.testBit k <;> simp [hp]

theorem bitLen_lt_two_pow (f n : Nat) (h : n < 2 ^ f) : n < 2 ^ bitLen f n := by
  induction f generalizing n with
  | zero =>
    have : n = 0 := by simpa using h
    simp [this, bitLen]
  | succ f ih =>
    by_cases hz : n = 0
    · simp [hz, bitLen]
    · have hdiv : n / 2 < 2 ^ f := by
        have := (Nat.div_lt_iff_lt_mul (by omega : 0 < 2)).mpr
          (by simpa [Nat.pow_succ] using h)
        exact this
      have := ih (n / 2) hdiv
      have h2 : n < 2 * (n / 2) + 2 := by omega
      calc n < 2 * (n / 2) + 2 := h2
        _ ≤ 2 * 2 ^ bitLen f (n / 2) := by omega
        _ = 2 ^ (bitLen f (n / 2) + 1) := by rw [Nat.pow_succ]; omega
        _ = 2 ^ bitLen (f + 1) n := by simp [bitLen, hz]

theorem bitLen_le (f n k : Nat) (h : n < 2 ^ k) (hk : k ≤ f) : bitLen f n ≤ k := by
  induction f generalizing n k with
  | zero => simp [bitLen]
  | succ f ih =>
    by_cases hz : n = 0
    · simp [hz, bitLen]
    · have hk1 : 1 ≤ k := by
        by_contra hc
        have : k = 0 := by omega
        subst this
        simp at h
        omega
      have hdiv : n / 2 < 2 ^ (k - 1) := by
        apply (Nat.div_lt_iff_lt_mul (by omega : 0 < 2)).mpr
        have : 2 ^ (k - 1) * 2 = 2 ^ k := by
          rw [← Nat.pow_succ]
          congr 1
          omega
        omega
      have := ih (n / 2) (k - 1) hdiv (by omega)
      simp only [bitLen, hz, if_false]
      omega

theorem u32len_le (n k : Nat) (h : n < 2 ^ k) (hk : k ≤ 32) : u32len n ≤ k :=
  bitLen_le 32 n k h hk

theorem lt_two_pow_u32len (n : Nat) (h : n < 2 ^ 32) : n < 2 ^ u32len n :=
  bitLen_lt_two_pow 32 n h

theorem testBit_false_of_u32len_le (n k : Nat) (h : n < 2 ^ 32)
    (hk : u32len n ≤ k) : n.testBit k = false := by
  apply Nat.testBit_lt_two_pow
  calc n < 2 ^ u32len n := lt_two_pow_u32len n h
    _ ≤ 2 ^ k := Nat.pow_le_pow_right (by omega) hk

theorem lt_u32len_of_testBit (n k : Nat) (h : n < 2 ^ 32)
    (hbit : n.testBit k = true) : k < u32len n := by
  by_contra hc
  rw [testBit_false_of_u32len_le n k h (by omega)] at hbit
  cases hbit

theorem u32len_le_32 (n : Nat) (h : n < 2 ^ 32) : u32len n ≤ 32 :=
  u32len_le n 32 h (by omega)

theorem shiftLeft_one (k : Nat) : (1 : Nat) <<< k = 2 ^ k := by
  simp [Nat.shiftLeft_eq]

theorem nextGo_some_facts (bytes len : Nat) :
    ∀ fuel i p j, nextGo bytes len fuel i = Except.ok (some p, j) →
      i ≤ p ∧ j = p + 1 ∧ p + 1 < 32 := by
  intro fuel
  induction fuel with
  | zero => intro i p j h; simp [nextGo] at h
  | succ f ih =>
    intro i p j h
    simp only [nextGo] at h
    split at h
    · cases h
    · split at h
      · rcases h with ⟨⟩
        omega
      · split at h
        · cases h
        · have := ih (i + 1) p j h
          omega

theorem nextGo_none_facts (bytes len : Nat) :
    ∀ fuel i j, nextGo bytes len fuel i = Except.ok (none, j) → i < j := by
  intro fuel
  induction fuel with
  | zero => intro i j h; simp [nextGo] at h
  | succ f ih =>
    intro i j h
    simp only [nextGo] at h
    split at h
    · cases h
    · split at h
      · cases h
      · split at h
        · rcases h with ⟨⟩
          omega
        · have := ih (i + 1) j h
          omega

theorem nextGo_clear (bytes len : Nat) (hlen : len ≤ 31) :
    ∀ fuel i, i < len → len - i ≤ fuel →
      (∀ q, i ≤ q → q + 1 ≤ 31 → bytes.testBit (q + 1) = false) →
      nextGo bytes len fuel i = Except.ok (none, len) := by
  intro fuel
  induction fuel with
  | zero => intro i hi hf _; omega
  | succ f ih =>
    intro i hi hf hclear
    have h32 : ¬ 32 ≤ i + 1 := by omega
    have hbit : bytes.testBit (i + 1) = false := hclear i (le_refl i) (by omega)
    have hcond : (bytes &&& (1 : Nat) <<< (i + 1) != 0) = false := by
      rw [shiftLeft_one, and_two_pow_ne, hbit]
    by_cases hend : len ≤ i + 1
    · have : len = i + 1 := by omega
      simp [nextGo, h32, hcond, hend, this]
    · have hrec := ih (i + 1) (by omega) (by omega)
        (fun q hq hq31 => hclear q (by omega) hq31)
      simp [nextGo, h32, hcond, hend, hrec]

theorem nextGo_yield (bytes len : Nat) :
    ∀ fuel i p0, i ≤ p0 → p0 + 2 ≤ len → len ≤ 32 →
      bytes.testBit (p0 + 1) = true →
      (∀ q, i ≤ q → q < p0 → bytes.testBit (q + 1) = false) →
      p0 - i < fuel →
      nextGo bytes len fuel i = Except.ok (some p0, p0 + 1) := by
  intro fuel
  induction fuel with
  | zero => intro i p0 _ _ _ _ _ hf; omega
  | succ f ih =>
    intro i p0 hip hplen hlen hbit hmin hf
    have h32 : ¬ 32 ≤ i + 1 := by omega
    by_cases heq : i = p0
    · subst heq
      have hcond : (bytes &&& (1 : Nat) <<< (i + 1) != 0) = true := by
        rw [shiftLeft_one, and_two_pow_ne, hbit]
      simp [nextGo, h32, hcond]
    · have hbi : bytes.testBit (i + 1) = false := hmin i (le_refl i) (by omega)
      have hcond : (bytes &&& (1 : Nat) <<< (i + 1) != 0) = false := by
        rw [shiftLeft_one, and_two_pow_ne, hbi]
      have hend : ¬ len ≤ i + 1 := by omega
      have hrec := ih (i + 1) p0 (by omega) hplen hlen hbit
        (fun q hq hqp => hmin q (by omega) hqp) (by omega)
      simp [nextGo, h32, hcond, hend, hrec]

theorem next_eq_none (bytes i : Nat) (hb : bytes < 2 ^ 31)
    (hclear : ∀ p, i ≤ p → p ≤ 30 → bytes.testBit (p + 1) = false) :
    ∃ j, Attributes.next ⟨bytes, i⟩ = Except.ok (none, ⟨bytes, j⟩) ∧ i ≤ j := by
  have hlen31 : u32len bytes ≤ 31 := u32len_le bytes 31 hb (by omega)
  by_cases hle : u32len bytes ≤ i
  · exact ⟨i, by simp [Attributes.next, hle], le_refl i⟩
  · have hgo := nextGo_clear bytes (u32len bytes) hlen31 33 i (by omega) (by omega)
      (fun q hq hq31 => hclear q hq (by omega))
    exact ⟨u32len bytes, by simp [Attributes.next, hle, hgo], by omega⟩

theorem next_eq_some (bytes i p0 : Nat) (hb : bytes < 2 ^ 31) (hip : i ≤ p0)
    (hbit : bytes.testBit (p0 + 1) = true)
    (hmin : ∀ q, i ≤ q → q < p0 → bytes.testBit (q + 1) = false) :
    ∃ h : p0 < 31,
      Attributes.next ⟨bytes, i⟩ = Except.ok (some ⟨⟨p0, h⟩⟩, ⟨bytes, p0 + 1⟩) := by
  have hb32 : bytes < 2 ^ 32 := lt_of_lt_of_le hb (by norm_num)
  have hge : 2 ^ (p0 + 1) ≤ bytes := Nat.testBit_implies_ge hbit
  have hp31 : p0 + 1 < 31 := by
    have := (Nat.pow_lt_pow_iff_right (a := 2) (by omega)).mp
      (lt_of_le_of_lt hge hb)
    omega
  have hlen : p0 + 2 ≤ u32len bytes := by
    have := lt_u32len_of_testBit bytes (p0 + 1) hb32 hbit
    omega
  have hlen32 : u32len bytes ≤ 32 := u32len_le_32 bytes hb32
  have hle : ¬ u32len bytes ≤ i := by omega
  have hgo := nextGo_yield bytes (u32len bytes) 33 i p0 hip hlen hlen32 hbit hmin
    (by omega)
  have hp0 : p0 < 31 := by omega
  have hnth : Attribute.nthKind p0 = some ⟨⟨p0, hp0⟩⟩ := by
    unfold Attribute.nthKind
    rw [dif_pos hp0]
  refine ⟨hp0, ?_⟩
  simp [Attributes.next, hle, hgo, hnth]

theorem attrsUpFrom_end (bytes i : Nat) (h : 31 ≤ i) : attrsUpFrom bytes i = [] := by
  unfold attrsUpFrom
  have h0 : 31 - i = 0 := by omega
  rw [h0]
  rfl

theorem attrsUpFrom_skip (bytes i : Nat) (h : i < 31)
    (hbit : bytes.testBit (i + 1) = false) :
    attrsUpFrom bytes i = attrsUpFrom bytes (i + 1) := by
  unfold attrsUpFrom
  have h31 : 31 - i = (31 - (i + 1)) + 1 := by omega
  rw [h31]
  simp [attrScan, h, hbit]

theorem attrsUpFrom_take (bytes i : Nat) (h : i < 31)
    (hbit : bytes.testBit (i + 1) = true) :
    attrsUpFrom bytes i = ⟨⟨i, h⟩⟩ :: attrsUpFrom bytes (i + 1) := by
  unfold attrsUpFrom
  have h31 : 31 - i = (31 - (i + 1)) + 1 := by omega
  rw [h31]
  simp [attrScan, h, hbit]

theorem attrsUpFrom_all_clear (bytes : Nat) :
    ∀ n i, n = 31 - i →
      (∀ p, i ≤ p → p ≤ 30 → bytes.testBit (p + 1) = false) →
      attrsUpFrom bytes i = [] := by
  intro n
  induction n with
  | zero =>
    intro i hn _
    exact attrsUpFrom_end bytes i (by omega)
  | succ n ih =>
    intro i hn hclear
    have hi : i < 31 := by omega
    rw [attrsUpFrom_skip bytes i hi (hclear i (le_refl i) (by omega))]
    exact ih (i + 1) (by omega) (fun p hp h30 => hclear p (by omega) h30)

theorem attrsUpFrom_cons_min (bytes : Nat) :
    ∀ n i p0, n = p0 - i → i ≤ p0 → ∀ h : p0 < 31,
      bytes.testBit (p0 + 1) = true →
      (∀ q, i ≤ q → q < p0 → bytes.testBit (q + 1) = false) →
      attrsUpFrom bytes i = ⟨⟨p0, h⟩⟩ :: attrsUpFrom bytes (p0 + 1) := by
  intro n
  induction n with
  | zero =>
    intro i p0 hn hip h hbit _
    have : i = p0 := by omega
    subst this
    exact attrsUpFrom_take bytes i h hbit
  | succ n ih =>
    intro i p0 hn hip h hbit hmin
    have hi : i < 31 := by omega
    rw [attrsUpFrom_skip bytes i hi (hmin i (le_refl i) (by omega))]
    exact ih (i + 1) p0 (by omega) (by omega) h hbit
      (fun q hq hqp => hmin q (by omega) hqp)

theorem mem_attrsUpFrom (bytes : Nat) :
    ∀ n i a, n = 31 - i →
      (a ∈ attrsUpFrom bytes i ↔
        i ≤ a.pos.val ∧ bytes.testBit (a.pos.val + 1) = true) := by
  intro n
  induction n with
  | zero =>
    intro i a hn
    rw [attrsUpFrom_end bytes i (by omega)]
    have := a.pos.isLt
    simp
    intro hle
    omega
  | succ n ih =>
    intro i a hn
    have hi : i < 31 := by omega
    cases hbit : bytes.testBit (i + 1) with
    | false =>
      rw [attrsUpFrom_skip bytes i hi hbit, ih (i + 1) a (by omega)]
      constructor
      · rintro ⟨h1, h2⟩
        exact ⟨by omega, h2⟩
      · rintro ⟨h1, h2⟩
        refine ⟨?_, h2⟩
        rcases Nat.eq_or_lt_of_le h1 with heq | hlt
        · rw [← heq] at h2
          rw [h2] at hbit
          cases hbit
        · omega
    | true =>
      rw [attrsUpFrom_take bytes i hi hbit, List.mem_cons, ih (i + 1) a (by omega)]
      constructor
      · rintro (rfl | ⟨h1, h2⟩)
        · exact ⟨le_refl i, hbit⟩
        · exact ⟨by omega, h2⟩
      · rintro ⟨h1, h2⟩
        rcases Nat.eq_or_lt_of_le h1 with heq | hlt
        · left
          cases a with
          | mk p =>
            cases p with
            | mk v hv =>
              simp at heq ⊢
              omega
        · right
          exact ⟨by omega, h2⟩

theorem pairwise_attrsUpFrom (bytes : Nat) :
    ∀ n i, n = 31 - i →
      (attrsUpFrom bytes i).Pairwise (fun a b => a.pos.val < b.pos.val) := by
  intro n
  induction n with
  | zero =>
    intro i hn
    rw [attrsUpFrom_end bytes i (by omega)]
    exact List.Pairwise.nil
  | succ n ih =>
    intro i hn
    have hi : i < 31 := by omega
    cases hbit : bytes.testBit (i + 1) with
    | false =>
      rw [attrsUpFrom_skip bytes i hi hbit]
      exact ih (i + 1) (by omega)
    | true =>
      rw [attrsUpFrom_take bytes i hi hbit]
      refine List.Pairwise.cons ?_ (ih (i + 1) (by omega))
      intro b hb
      have := (mem_attrsUpFrom bytes (31 - (i + 1)) (i + 1) b rfl).mp hb
      simpa using by omega

/-- Driving the iterator from cursor `i` on a mask with bit 31 clear
collects exactly the kinds at positions `≥ i` whose bits are set,
in ascending position order. -/
theorem collect_spec (bytes : Nat) (hb : bytes < 2 ^ 31) :
    ∀ fuel i, 31 - i < fuel →
      collect fuel ⟨bytes, i⟩ = Except.ok (attrsUpFrom bytes i) := by
  intro fuel
  induction fuel with
  | zero => intro i hf; omega
  | succ f ih =>
    intro i hf
    by_cases hex : ∃ p, (i ≤ p ∧ p ≤ 30) ∧ bytes.testBit (p + 1) = true
    · have hdec : DecidablePred fun p => (i ≤ p ∧ p ≤ 30) ∧ bytes.testBit (p + 1) = true :=
        fun p => by infer_instance
      have hspec := Nat.find_spec hex
      set p0 := Nat.find hex with hp0def
      obtain ⟨⟨hip, h30⟩, hbit⟩ := hspec
      have hmin : ∀ q, i ≤ q → q < p0 → bytes.testBit (q + 1) = false := by
        intro q hq hqp
        have := Nat.find_min hex hqp
        by_contra hc
        exact this ⟨⟨hq, by omega⟩, by simpa using hc⟩
      obtain ⟨hp31, hnext⟩ := next_eq_some bytes i p0 hb hip hbit hmin
      have hrest := ih (p0 + 1) (by omega)
      rw [attrsUpFrom_cons_min bytes (p0 - i) i p0 rfl hip hp31 hbit hmin]
      simp [collect, hnext, hrest]
    · have hclear : ∀ p, i ≤ p → p ≤ 30 → bytes.testBit (p + 1) = false := by
        intro p hp h30
        by_contra hc
        exact hex ⟨p, ⟨hp, h30⟩, by simpa using hc⟩
      obtain ⟨j, hnext, _⟩ := next_eq_none bytes i hb hclear
      rw [attrsUpFrom_all_clear bytes (31 - i) i rfl hclear]
      simp [collect, hnext]

theorem countFlush_append (a b : Sink) :
    countFlush (a ++ b) = countFlush a + countFlush b := by
  induction a with
  | nil => simp [countFlush]
  | cons e t ih =>
    cases e with
    | write s => simpa [countFlush] using ih
    | flush => simp [countFlush, ih]; omega

theorem countFlush_writesOf (cs : List Capability) : countFlush (writesOf cs) = 0 := by
  induction cs with
  | nil => rfl
  | cons c t ih => simpa [writesOf, countFlush] using ih

theorem queue_ok (w : Sink) (cs : List Capability)
    (h : ∀ c ∈ cs, c.res = Except.ok ()) :
    queue w cs = (Except.ok (), w ++ writesOf cs) := by
  induction cs generalizing w with
  | nil => simp [queue, writesOf]
  | cons c rest ih =>
    have hc : c.res = Except.ok () := h c (by simp)
    have hrest : ∀ x ∈ rest, x.res = Except.ok () := fun x hx => h x (by simp [hx])
    simp [queue, handle_command, hc, ih _ hrest, writesOf]

theorem queue_err (w : Sink) (pre : List Capability) (c : Capability)
    (post : List Capability) (e : String)
    (hpre : ∀ p ∈ pre, p.res = Except.ok ()) (hc : c.res = Except.error e) :
    queue w (pre ++ c :: post) = (Except.error e, w ++ writesOf pre) := by
  induction pre generalizing w with
  | nil => simp [queue, handle_command, hc, writesOf]
  | cons p t ih =>
    have hp : p.res = Except.ok () := hpre p (by simp)
    have ht : ∀ x ∈ t, x.res = Except.ok () := fun x hx => hpre x (by simp [hx])
    simp [queue, handle_command, hp, ih _ ht, writesOf]

/-- Any list of capabilities that does not wholly succeed splits at its
first failing capability. -/
theorem exists_first_err (cs : List Capability)
    (h : ¬ ∀ c ∈ cs, c.res = Except.ok ()) :
    ∃ pre c post e, cs = pre ++ c :: post ∧
      (∀ p ∈ pre, p.res = Except.ok ()) ∧ c.res = Except.error e := by
  induction cs with
  | nil => exact absurd (by intro c hc; cases hc) h
  | cons c rest ih =>
    cases hres : c.res with
    | ok u =>
      cases u
      have hrest : ¬ ∀ x ∈ rest, x.res = Except.ok () := by
        intro hall
        exact h (by
          intro x hx
          rcases List.mem_cons.mp hx with hx | hx
          · simpa [hx] using hres
          · exact hall x hx)
      rcases ih hrest with ⟨pre, d, post, e, hsplit, hpre, hd⟩
      refine ⟨c :: pre, d, post, e, by simp [hsplit], ?_, hd⟩
      intro p hp
      rcases List.mem_cons.mp hp with hp | hp
      · simpa [hp] using hres
      · exact hpre p hp
    | error e => exact ⟨[], c, rest, e, rfl, by simp, hres⟩

/-- C1: for every non-empty sequence of capabilities whose writes all
succeed, `queue` appends exactly the rendered forms to the sink, in
argument order, and performs no flush. -/
theorem C1_queue_writes_in_order (w : Sink) (cs : List Capability)
    (_hne : cs ≠ []) (h : ∀ c ∈ cs, c.res = Except.ok ()) :
    queue w cs = (Except.ok (), w ++ writesOf cs) ∧
      countFlush (w ++ writesOf cs) = countFlush w := by
  refine ⟨queue_ok w cs h, ?_⟩
  simp [countFlush_append, countFlush_writesOf]

theorem C1_witness :
    queue [] [⟨"cmdA", Except.ok ()⟩, ⟨"cmdB", Except.ok ()⟩] =
      (Except.ok (), [Event.write "cmdA", Event.write "cmdB"]) ∧
      countFlush ([] ++ writesOf [⟨"cmdA", Except.ok ()⟩, ⟨"cmdB", Except.ok ()⟩]) =
        countFlush [] := by
  have h := C1_queue_writes_in_order []
      [⟨"cmdA", Except.ok ()⟩, ⟨"cmdB", Except.ok ()⟩]
      (by decide) (by decide)
  exact ⟨by simpa [writesOf] using h.1, h.2⟩

/-- C2: `execute` flushes the sink if and only if every queued write
succeeded; in the success case the flush is the single new flush event and
comes after the last write. -/
theorem C2_execute_flush_iff (w : Sink) (cs : List Capability) :
    ((∀ c ∈ cs, c.res = Except.ok ()) →
      execute w cs = (Except.ok (), (w ++ writesOf cs) ++ [Event.flush])) ∧
    countFlush (execute w cs).2 =
      countFlush w + (if ∀ c ∈ cs, c.res = Except.ok () then 1 else 0) := by
  constructor
  · intro h
    simp [execute, queue_ok w cs h]
  · by_cases h : ∀ c ∈ cs, c.res = Except.ok ()
    · simp only [if_pos h]
      simp [execute, queue_ok w cs h, countFlush_append, countFlush_writesOf, countFlush]
    · rcases exists_first_err cs h with ⟨pre, c, post, e, hsplit, hpre, hc⟩
      subst hsplit
      simp only [if_neg h]
      simp [execute, queue_err w pre c post e hpre hc, countFlush_append,
        countFlush_writesOf]

theorem C2_witness :
    execute [] [⟨"cmdA", Except.ok ()⟩, ⟨"cmdB", Except.ok ()⟩] =
      (Except.ok (),
        ([] ++ writesOf [⟨"cmdA", Except.ok ()⟩, ⟨"cmdB", Except.ok ()⟩]) ++
          [Event.flush]) :=
  (C2_execute_flush_iff [] [⟨"cmdA", Except.ok ()⟩, ⟨"cmdB", Except.ok ()⟩]).1
    (by decide)

/-- C3: a batch with a failing capability returns that first failure from
both `queue` and `execute`; only the capabilities before it are processed,
their bytes stay in the sink, and `execute` performs no flush. -/
theorem C3_first_failure_aborts (w : Sink) (pre : List Capability)
    (c : Capability) (post : List Capability) (e : String)
    (hpre : ∀ p ∈ pre, p.res = Except.ok ()) (hc : c.res = Except.error e) :
    queue w (pre ++ c :: post) = (Except.error e, w ++ writesOf pre) ∧
      execute w (pre ++ c :: post) = (Except.error e, w ++ writesOf pre) := by
  refine ⟨queue_err w pre c post e hpre hc, ?_⟩
  simp [execute, queue_err w pre c post e hpre hc]

theorem nextGo_succ_eq (bytes len f idx : Nat) :
    nextGo bytes len (f + 1) idx =
      if 32 ≤ idx + 1 then Except.error Panic.shiftOverflow
      else if bytes &&& ((1 : Nat) <<< (idx + 1)) != 0 then Except.ok (some idx, idx + 1)
      else if len ≤ idx + 1 then Except.ok (none, idx + 1)
      else nextGo bytes len f (idx + 1) := rfl

theorem testBit_u32Mask (k : Nat) : u32Mask.testBit k = decide (k < 32) := by
  unfold u32Mask
  exact Nat.testBit_two_pow_sub_one 32 k

theorem nthKind_some_val (i : Nat) (k : Attribute)
    (h : Attribute.nthKind i = some k) : k.pos.val = i := by
  unfold Attribute.nthKind at h
  split at h
  · cases h
    rfl
  · cases h

theorem next_yield_ge (x : Attributes) (p : Attribute) (x1 : Attributes)
    (h : x.next = Except.ok (some p, x1)) :
    x.idx ≤ p.pos.val ∧ x1.idx = p.pos.val + 1 := by
  simp only [Attributes.next] at h
  split at h
  · simp at h
  · split at h
    · cases h
    · simp at h
    · rename_i q j heq
      split at h
      · rename_i k hk
        rcases h with ⟨⟩
        have hq := nextGo_some_facts x.bytes (u32len x.bytes) 33 x.idx q j heq
        have hv := nthKind_some_val q p hk
        exact ⟨by omega, by simp [hv]; omega⟩
      · cases h

theorem next_cursor_mono (x : Attributes) (o : Option Attribute) (x1 : Attributes)
    (h : x.next = Except.ok (o, x1)) : x.idx ≤ x1.idx := by
  simp only [Attributes.next] at h
  split at h
  · rcases h with ⟨⟩
    exact le_refl _
  · split at h
    · cases h
    · rename_i j heq
      rcases h with ⟨⟩
      have := nextGo_none_facts x.bytes (u32len x.bytes) 33 x.idx j heq
      simpa using by omega
    · rename_i q j heq
      split at h
      · rcases h with ⟨⟩
        have hq := nextGo_some_facts x.bytes (u32len x.bytes) 33 x.idx q j heq
        simpa using by omega
      · cases h

/-- C4 counterexample: two attribute sets with equal masks but different
cursors are not equal under the source's derived equality; the second is
reachable by one iteration step on a copy of the first. -/
theorem C4_counterexample :
    (Attributes.mk 2 0).bytes = (Attributes.mk 2 1).bytes ∧
    Attributes.mk 2 0 ≠ Attributes.mk 2 1 ∧
    Attributes.next ⟨2, 0⟩ = Except.ok (some (attrK 0), ⟨2, 1⟩) := by
  refine ⟨rfl, by decide, rfl⟩

/-- C4 (amended): equality of attribute sets is structural, comparing the
mask and the iteration cursor; the cursor is therefore part of equality,
but no set-algebra result (`bitand`, `bitor`, `bitxor`, `has`,
`is_empty`) depends on it. -/
theorem C4_cursor_and_equality (b1 i1 b2 i2 : Nat) :
    (Attributes.mk b1 i1 = Attributes.mk b2 i2 ↔ b1 = b2 ∧ i1 = i2) ∧
    Attributes.bitand ⟨b1, i1⟩ ⟨b2, i2⟩ = Attributes.bitand ⟨b1, 0⟩ ⟨b2, 0⟩ ∧
    Attributes.bitor ⟨b1, i1⟩ ⟨b2, i2⟩ = Attributes.bitor ⟨b1, 0⟩ ⟨b2, 0⟩ ∧
    Attributes.bitxor ⟨b1, i1⟩ ⟨b2, i2⟩ = Attributes.bitxor ⟨b1, 0⟩ ⟨b2, 0⟩ ∧
    (∀ a, (Attributes.mk b1 i1).has a = (Attributes.mk b1 0).has a) ∧
    (Attributes.mk b1 i1).isEmptySet = (Attributes.mk b1 0).isEmptySet := by
  refine ⟨?_, rfl, rfl, rfl, fun a => rfl, rfl⟩
  constructor
  · intro h
    cases h
    exact ⟨rfl, rfl⟩
  · rintro ⟨rfl, rfl⟩
    rfl

/-- C6: `set` makes `has` true, `set` then `unset` makes it false, `set`
and `unset` are idempotent, and `toggle` twice restores the original set. -/
theorem C6_set_unset_toggle (x : Attributes) (a : Attribute) :
    (x.set a).has a = true ∧
    ((x.set a).unset a).has a = false ∧
    (x.set a).set a = x.set a ∧
    (x.unset a).unset a = x.unset a ∧
    (x.toggle a).toggle a = x := by
  have h32 : decide (a.pos.val + 1 < 32) = true := decide_eq_true (by
    have := a.pos.isLt
    omega)
  refine ⟨?_, ?_, ?_, ?_, ?_⟩
  · simp [Attributes.has, Attributes.set, Attribute.bytes, and_two_pow_ne,
      Nat.testBit_or, Nat.testBit_two_pow_self]
  · simp [Attributes.has, Attributes.set, Attributes.unset, Attribute.bytes,
      and_two_pow_ne, Nat.testBit_and, Nat.testBit_xor, Nat.testBit_two_pow_self,
      testBit_u32Mask, h32]
  · simp [Attributes.set, Nat.or_assoc]
  · simp [Attributes.unset, Nat.and_assoc]
  · cases x with
    | mk b i => simp [Attributes.toggle, Nat.xor_assoc]

/-- C7: membership in the union is disjunction of memberships, and
membership in the intersection is conjunction of memberships. -/
theorem C7_union_intersection (x y : Attributes) (a : Attribute) :
    (x.bitor y).has a = (x.has a || y.has a) ∧
    (x.bitand y).has a = (x.has a && y.has a) := by
  constructor <;>
    simp [Attributes.has, Attributes.bitor, Attributes.bitand, Attribute.bytes,
      and_two_pow_ne, Nat.testBit_or, Nat.testBit_and]

theorem C3_witness :
    queue [] ([⟨"cmdA", Except.ok ()⟩] ++ ⟨"bad", Except.error "boom"⟩ ::
        [⟨"cmdB", Except.ok ()⟩]) =
      (Except.error "boom", [] ++ writesOf [⟨"cmdA", Except.ok ()⟩]) ∧
      execute [] ([⟨"cmdA", Except.ok ()⟩] ++ ⟨"bad", Except.error "boom"⟩ ::
          [⟨"cmdB", Except.ok ()⟩]) =
        (Except.error "boom", [] ++ writesOf [⟨"cmdA", Except.ok ()⟩]) :=
  C3_first_failure_aborts [] [⟨"cmdA", Except.ok ()⟩] ⟨"bad", Except.error "boom"⟩
    [⟨"cmdB", Except.ok ()⟩] "boom" (by decide) (by decide)

theorem attr_eq_of_pos_val {x y : Attribute} (h : x.pos.val = y.pos.val) : x = y := by
  cases x with
  | mk p =>
    cases y with
    | mk q =>
      cases p
      cases q
      simp at h ⊢
      omega

theorem fromList_foldl (l : List Attribute) :
    ∀ s : Attributes, l.foldl (fun s a => s.set a) s =
      ⟨l.foldl (fun b a => b ||| a.bytes) s.bytes, s.idx⟩ := by
  induction l with
  | nil =>
    intro s
    cases s
    rfl
  | cons a t ih =>
    intro s
    simpa [Attributes.set] using ih ⟨s.bytes ||| a.bytes, s.idx⟩

theorem testBit_maskFold (k : Nat) :
    ∀ (l : List Attribute) (b : Nat),
      (l.foldl (fun b a => b ||| a.bytes) b).testBit k =
        (b.testBit k || l.any (fun a => decide (a.pos.val + 1 = k))) := by
  intro l
  induction l with
  | nil => intro b; simp
  | cons a t ih =>
    intro b
    rw [List.foldl_cons, ih]
    simp [Nat.testBit_or, Attribute.bytes, Nat.testBit_two_pow, Bool.or_assoc]

theorem has_fromList (l : List Attribute) (a : Attribute) :
    (Attributes.fromList l).has a = true ↔ a ∈ l := by
  have hkey : (Attributes.fromList l).has a =
      (List.foldl (fun (b : Nat) (x : Attribute) => b ||| x.bytes) 0 l).testBit
        (a.pos.val + 1) := by
    unfold Attributes.fromList
    rw [fromList_foldl]
    simp only [Attributes.has, Attributes.default]
    rw [show a.bytes = 2 ^ (a.pos.val + 1) from rfl, and_two_pow_ne]
  rw [hkey, testBit_maskFold]
  simp only [Nat.zero_testBit, Bool.false_or, List.any_eq_true]
  constructor
  · rintro ⟨x, hx, hd⟩
    have hv : x.pos.val = a.pos.val := by
      have := of_decide_eq_true hd
      omega
    rwa [← attr_eq_of_pos_val hv]
  · intro h
    exact ⟨a, h, by simp⟩

theorem fromList_eq_of_mem_iff (l l' : List Attribute)
    (h : ∀ a, a ∈ l ↔ a ∈ l') :
    Attributes.fromList l = Attributes.fromList l' := by
  unfold Attributes.fromList
  rw [fromList_foldl, fromList_foldl]
  simp only [Attributes.default]
  have hbytes : (l.foldl (fun b a => b ||| a.bytes) 0) =
      (l'.foldl (fun b a => b ||| a.bytes) 0) := by
    apply Nat.eq_of_testBit_eq
    intro k
    rw [testBit_maskFold, testBit_maskFold]
    rw [Bool.eq_iff_iff]
    simp only [Bool.or_eq_true, List.any_eq_true]
    constructor
    · rintro (hf | ⟨x, hx, hp⟩)
      · exact Or.inl hf
      · exact Or.inr ⟨x, (h x).mp hx, hp⟩
    · rintro (hf | ⟨x, hx, hp⟩)
      · exact Or.inl hf
      · exact Or.inr ⟨x, (h x).mpr hx, hp⟩
  rw [hbytes]

/-- C8: converting a sequence of attribute kinds to a set yields the set
containing exactly those kinds; duplicates collapse (the deduplicated
sequence gives the same set) and the result is order-independent. -/
theorem C8_fromList_exact (l : List Attribute) :
    (∀ a, (Attributes.fromList l).has a = true ↔ a ∈ l) ∧
    Attributes.fromList l.dedup = Attributes.fromList l ∧
    (∀ l', l.Perm l' → Attributes.fromList l' = Attributes.fromList l) := by
  refine ⟨has_fromList l, ?_, ?_⟩
  · exact fromList_eq_of_mem_iff _ _ (fun a => List.mem_dedup)
  · intro l' hperm
    exact fromList_eq_of_mem_iff _ _ (fun a => (hperm.mem_iff).symm)

theorem C8_witness :
    Attributes.fromList [attrK 1, attrK 0] = Attributes.fromList [attrK 0, attrK 1] :=
  (C8_fromList_exact [attrK 0, attrK 1]).2.2 [attrK 1, attrK 0]
    (List.Perm.swap (attrK 1) (attrK 0) [])

/-- C5 (amended): for every attribute set whose mask has bit 31 clear,
iterating from a fresh cursor yields exactly the attribute kinds whose
bits are set, each once, in ascending bit-position order, and the
iteration is finite; an all-zero mask yields an empty iteration
immediately.  (Sets with bit 31 set panic after their last yield,
see the counterexample.) -/
theorem C5_iteration_ascending (bytes : Nat) (hb : bytes < 2 ^ 31) :
    collect 33 ⟨bytes, 0⟩ = Except.ok (attrsUpFrom bytes 0) ∧
    (∀ a, a ∈ attrsUpFrom bytes 0 ↔ bytes.testBit (a.pos.val + 1) = true) ∧
    (attrsUpFrom bytes 0).Pairwise (fun a b => a.pos.val < b.pos.val) ∧
    (∀ i, Attributes.next ⟨0, i⟩ = Except.ok (none, ⟨0, i⟩)) := by
  refine ⟨collect_spec bytes hb 33 0 (by omega), ?_,
    pairwise_attrsUpFrom bytes 31 0 rfl, ?_⟩
  · intro a
    simpa using mem_attrsUpFrom bytes 31 0 a rfl
  · intro i
    have h0 : u32len 0 = 0 := rfl
    simp [Attributes.next, h0]

theorem C5_witness :
    collect 33 ⟨10, 0⟩ = Except.ok (attrsUpFrom 10 0) :=
  (C5_iteration_ascending 10 (by decide)).1

/-- C5 counterexample: on the set whose mask is exactly bit 31 (the
highest attribute kind), driving the iterator panics with a shift
overflow on the call after the last yield instead of completing, so the
claim's unrestricted form fails. -/
theorem C5_counterexample :
    Attributes.fromAttribute (attrK 30) = ⟨2 ^ 31, 0⟩ ∧
    collect 33 ⟨2 ^ 31, 0⟩ = Except.error Panic.shiftOverflow ∧
    collect 33 ⟨2 ^ 31, 0⟩ ≠ Except.ok (attrsUpFrom (2 ^ 31) 0) := by
  have h1 : collect 33 ⟨2 ^ 31, 0⟩ = Except.error Panic.shiftOverflow := rfl
  refine ⟨rfl, h1, ?_⟩
  rw [h1]
  simp

/-- C9: `Attributes::next` is panic-free exactly when bit 31 of the mask
is clear: with bit 31 clear no call can panic, while with bit 31 set the
kind owning bit 31 is yielded at cursor 30, and the following call, at
cursor 31, evaluates the shift `1u32 << 32`, which overflows the 32-bit
shift width. -/
theorem C9_bit31_shift_overflow (bytes : Nat) (hb : bytes < 2 ^ 32) :
    (bytes.testBit 31 = false →
      ∀ i p, Attributes.next ⟨bytes, i⟩ ≠ Except.error p) ∧
    (bytes.testBit 31 = true →
      Attributes.next ⟨bytes, 30⟩ = Except.ok (some (attrK 30), ⟨bytes, 31⟩) ∧
      Attributes.next ⟨bytes, 31⟩ = Except.error Panic.shiftOverflow) := by
  constructor
  · intro hbit31 i p
    have hb31 : bytes < 2 ^ 31 := by
      by_contra hc
      push_neg at hc
      have hr : bytes - 2 ^ 31 < 2 ^ 31 := by omega
      have ht : bytes.testBit 31 = true := by
        have hsplit : bytes = 2 ^ 31 + (bytes - 2 ^ 31) := by omega
        rw [hsplit, Nat.testBit_two_pow_add_eq, Nat.testBit_lt_two_pow hr]
        rfl
      rw [ht] at hbit31
      cases hbit31
    by_cases hex : ∃ q, (i ≤ q ∧ q ≤ 30) ∧ bytes.testBit (q + 1) = true
    · obtain ⟨⟨hip, h30⟩, hbit⟩ := Nat.find_spec hex
      have hmin : ∀ q, i ≤ q → q < Nat.find hex → bytes.testBit (q + 1) = false := by
        intro q hq hqp
        have hnot := Nat.find_min hex hqp
        by_contra hcq
        exact hnot ⟨⟨hq, by omega⟩, by simpa using hcq⟩
      obtain ⟨hp31, hnext⟩ := next_eq_some bytes i (Nat.find hex) hb31 hip hbit hmin
      rw [hnext]
      simp
    · have hclear : ∀ q, i ≤ q → q ≤ 30 → bytes.testBit (q + 1) = false := by
        intro q hq h30
        by_contra hcq
        exact hex ⟨q, ⟨hq, h30⟩, by simpa using hcq⟩
      obtain ⟨j, hnext, _⟩ := next_eq_none bytes i hb31 hclear
      rw [hnext]
      simp
  · intro hbit31
    have hlen32 : u32len bytes = 32 := by
      have h1 := lt_u32len_of_testBit bytes 31 hb hbit31
      have h2 := u32len_le_32 bytes hb
      omega
    have h33 : (33 : Nat) = 32 + 1 := rfl
    constructor
    · have hle : ¬ u32len bytes ≤ 30 := by omega
      have hcond : (bytes &&& (1 : Nat) <<< (30 + 1) != 0) = true := by
        rw [shiftLeft_one, and_two_pow_ne, hbit31]
      have hgo : nextGo bytes (u32len bytes) 33 30 = Except.ok (some 30, 31) := by
        rw [hlen32, h33, nextGo_succ_eq]
        rw [if_neg (by omega : ¬ (32 : Nat) ≤ 30 + 1)]
        rw [if_pos hcond]
      have hnth : Attribute.nthKind 30 = some (attrK 30) := rfl
      simp [Attributes.next, hle, hgo, hnth]
    · have hle : ¬ u32len bytes ≤ 31 := by omega
      have hgo : nextGo bytes (u32len bytes) 33 31 = Except.error Panic.shiftOverflow := by
        rw [hlen32, h33, nextGo_succ_eq]
        simp
      simp [Attributes.next, hle, hgo]

theorem C9_witness :
    Attributes.next ⟨2 ^ 31, 30⟩ = Except.ok (some (attrK 30), ⟨2 ^ 31, 31⟩) ∧
    Attributes.next ⟨2 ^ 31, 31⟩ = Except.error Panic.shiftOverflow :=
  (C9_bit31_shift_overflow (2 ^ 31) (by decide)).2 (by decide)

/-- C10: the in-place mutators `set`, `unset`, `toggle` and `extend`
change only the mask and leave the iteration cursor untouched; every kind
a `next` call yields sits at a position at least the current cursor, the
cursor never decreases across `next`, and consequently setting a bit at
or below the cursor of a partially- or fully-iterated handle makes the
following `next` calls on that handle skip that attribute. -/
theorem C10_mutation_keeps_cursor (x : Attributes) (a : Attribute) :
    (x.set a).idx = x.idx ∧
    (x.unset a).idx = x.idx ∧
    (x.toggle a).idx = x.idx ∧
    (∀ y, (x.extend y).idx = x.idx) ∧
    (∀ p x1, x.next = Except.ok (some p, x1) → x.idx ≤ p.pos.val ∧ x.idx < x1.idx) ∧
    (∀ o x1, x.next = Except.ok (o, x1) → x.idx ≤ x1.idx) ∧
    (a.pos.val < x.idx →
      ∀ o x1, (x.set a).next = Except.ok (o, x1) → o ≠ some a) := by
  refine ⟨rfl, rfl, rfl, fun y => rfl, ?_, ?_, ?_⟩
  · intro p x1 h
    have := next_yield_ge x p x1 h
    omega
  · intro o x1 h
    exact next_cursor_mono x o x1 h
  · intro hlt o x1 h
    cases o with
    | none => simp
    | some b =>
      intro hcon
      have hb : b = a := by injection hcon
      have hge := next_yield_ge (x.set a) b x1 h
      have hidx : (x.set a).idx = x.idx := rfl
      rw [hidx, hb] at hge
      omega

theorem C10_witness :
    ((Attributes.mk 2 5).set (attrK 0)).idx = (Attributes.mk 2 5).idx ∧
    (none : Option Attribute) ≠ some (attrK 0) := by
  have h := C10_mutation_keeps_cursor ⟨2, 5⟩ (attrK 0)
  exact ⟨h.1, h.2.2.2.2.2.2 (by decide) none ⟨2, 5⟩ rfl⟩

end Crossterm
